import Mathlib

/-!
Verification of the `TrainingData` store of the rust-punkt repository
(`src/trainer/data.rs`): the four learned-vocabulary containers, the
JSON deserialization protocol (`FromStr for TrainingData`), and the
collocation flattening iterator (`CollocationsIterator`).

The Rust `HashSet<String>` containers are embedded as duplicate-free
`List String`, and the `HashMap<String, _>` containers as association
lists `List (String × _)` with distinct keys; every operation is
translated line by line from the source.  Hash iteration order is
unspecified in the source, so the list order carried here is just one
admissible order; all stated properties are order-insensitive
(membership, counts, lengths).
-/

set_option autoImplicit false

/-- Embedding of `rustc_serialize::json::Json`.  The `f64` constructor
carries no payload: `from_str` never inspects a float value (only
`is_u64`, which is false for `F64`), and the parser produces `U64` for
non-negative integers, `I64` for negative integers, `F64` otherwise. -/
inductive Json where
  | null : Json
  | boolean : Bool → Json
  | u64 : Nat → Json
  | i64 : Int → Json
  | f64 : Json
  | string : String → Json
  | array : List Json → Json
  | object : List (String × Json) → Json

/-- `Json::is_u64`: true exactly on the `U64` variant. -/
def Json.isU64 : Json → Bool
  | .u64 _ => true
  | _ => false

/-- True exactly on the `Object` variant. -/
def Json.isObject : Json → Bool
  | .object _ => true
  | _ => false

/-- True exactly on the `Array` variant. -/
def Json.isArrayVal : Json → Bool
  | .array _ => true
  | _ => false

/-- `HashSet::contains` on the list embedding of a hash set. -/
def setContains : List String → String → Bool
  | [], _ => false
  | y :: rest, x => if y = x then true else setContains rest x

/-- `HashSet::insert`: returns whether the element was newly added,
together with the updated set. -/
def setInsert (s : List String) (x : String) : Bool × List String :=
  if setContains s x then (false, s) else (true, s ++ [x])

/-- `HashSet::remove`: returns whether the element was present,
together with the updated set. -/
def setRemove : List String → String → Bool × List String
  | [], _ => (false, [])
  | y :: rest, x =>
    if y = x then (true, rest)
    else
      let r := setRemove rest x
      (r.1, y :: r.2)

/-- `HashMap::get` / `BTreeMap::get` on an association list (first
matching key wins; the real maps have distinct keys). -/
def alistLookup {α : Type} : List (String × α) → String → Option α
  | [], _ => none
  | (k, v) :: rest, x => if k = x then some v else alistLookup rest x

/-- `HashMap::contains_key` on the association-list embedding. -/
def alistContainsKey {α : Type} (m : List (String × α)) (k : String) : Bool :=
  (alistLookup m k).isSome

/-- `HashMap::insert` (overwriting an existing key, appending a new
one), as used for the `ortho_context` values in `from_str`. -/
def alistInsertOver {α : Type} : List (String × α) → String → α → List (String × α)
  | [], k, v => [(k, v)]
  | (k0, v0) :: rest, k, v =>
    if k0 = k then (k, v) :: rest else (k0, v0) :: alistInsertOver rest k v

/-- The Rust store `TrainingData`: an abbreviation set, a map from
left-collocation token to the set of right tokens, a sentence-starter
set, and a map from token to its `OrthographicContext` (`u8`,
embedded as `Nat`). -/
structure TrainingData where
  abbrev_types : List String
  collocations : List (String × List String)
  sentence_starters : List String
  orthographic_context : List (String × Nat)
deriving Repr

/-- `Default::default()` for `TrainingData`: all four containers empty. -/
def TrainingData.mkDefault : TrainingData :=
  { abbrev_types := [], collocations := [], sentence_starters := [],
    orthographic_context := [] }

/-- `TrainingData::insert_abbrev`. -/
def TrainingData.insert_abbrev (d : TrainingData) (tok : String) :
    Bool × TrainingData :=
  if setContains d.abbrev_types tok then (false, d)
  else
    let r := setInsert d.abbrev_types tok
    (r.1, { d with abbrev_types := r.2 })

/-- The `get_mut(tok0).unwrap().insert(tok1)` step of
`insert_collocation`: insert `tok1` into the bucket stored under the
first entry whose key is `tok0`.  The empty-list case corresponds to
the `unwrap` on an absent key and is unreachable after the presence
check of `insert_collocation`. -/
def bucketInsert : List (String × List String) → String → String →
    Bool × List (String × List String)
  | [], _, _ => (false, [])
  | (k, bucket) :: rest, tok0, tok1 =>
    if k = tok0 then
      let r := setInsert bucket tok1
      (r.1, (k, r.2) :: rest)
    else
      let r := bucketInsert rest tok0 tok1
      (r.1, (k, bucket) :: r.2)

/-- `TrainingData::insert_collocation`: ensure a bucket exists for
`tok0` (creating an empty one on first use), then insert `tok1` into
it, returning whether `tok1` was newly added. -/
def TrainingData.insert_collocation (d : TrainingData) (tok0 tok1 : String) :
    Bool × TrainingData :=
  let colls :=
    if alistContainsKey d.collocations tok0 then d.collocations
    else d.collocations ++ [(tok0, [])]
  let r := bucketInsert colls tok0 tok1
  (r.1, { d with collocations := r.2 })

/-- `TrainingData::insert_sentence_starter`. -/
def TrainingData.insert_sentence_starter (d : TrainingData) (tok : String) :
    Bool × TrainingData :=
  if setContains d.sentence_starters tok then (false, d)
  else
    let r := setInsert d.sentence_starters tok
    (r.1, { d with sentence_starters := r.2 })

/-- `TrainingData::insert_orthographic_context`: insert only if the
token has no stored value yet (`HashMap::insert` on an absent key
returns `None`, hence the `true` result). -/
def TrainingData.insert_orthographic_context (d : TrainingData)
    (tok : String) (ctxt : Nat) : Bool × TrainingData :=
  if alistContainsKey d.orthographic_context tok then (false, d)
  else (true,
    { d with orthographic_context := d.orthographic_context ++ [(tok, ctxt)] })

/-- `TrainingData::clear_collocations`. -/
def TrainingData.clear_collocations (d : TrainingData) : TrainingData :=
  { d with collocations := [] }

/-- The bucket-update step of `remove_collocation`: remove `tok1` from
the bucket of the first entry whose key is `tok0`, keeping the entry
even when its bucket becomes empty. -/
def bucketRemove : List (String × List String) → String → String →
    Bool × List (String × List String)
  | [], _, _ => (false, [])
  | (k, bucket) :: rest, tok0, tok1 =>
    if k = tok0 then
      let r := setRemove bucket tok1
      (r.1, (k, r.2) :: rest)
    else
      let r := bucketRemove rest tok0 tok1
      (r.1, (k, bucket) :: r.2)

/-- `TrainingData::remove_collocation`:
`get_mut(tok0).map(|s| s.remove(tok1)).unwrap_or(false)` — `false`
and no mutation when `tok0` has no bucket; otherwise the bucket's own
removal result, the (possibly emptied) bucket staying in the map. -/
def TrainingData.remove_collocation (d : TrainingData) (tok0 tok1 : String) :
    Bool × TrainingData :=
  if alistContainsKey d.collocations tok0 then
    let r := bucketRemove d.collocations tok0 tok1
    (r.1, { d with collocations := r.2 })
  else (false, d)

/-- `TrainingData::contains_collocation`. -/
def TrainingData.contains_collocation (d : TrainingData) (tok0 tok1 : String) :
    Bool :=
  match alistLookup d.collocations tok0 with
  | some bucket => setContains bucket tok1
  | none => false

/-- `TrainingData::get_orthographic_context`. -/
def TrainingData.get_orthographic_context (d : TrainingData) (tok : String) :
    Option Nat :=
  alistLookup d.orthographic_context tok

/-- `TrainingData::collocations_len`: the fold
`iter().fold(0, |acc, (_, s)| acc + s.len())` — the sum of the inner
bucket sizes. -/
def TrainingData.collocations_len (d : TrainingData) : Nat :=
  d.collocations.foldl (fun acc p => acc + p.2.length) 0

/-! ## Deserialization: `impl FromStr for TrainingData` -/

/-- Lookup of a top-level field in the embedding of a JSON object. -/
def objLookup : List (String × Json) → String → Option Json
  | [], _ => none
  | (k, v) :: rest, x => if k = x then some v else objLookup rest x

/-- `BTreeMap::remove` as used by `obj.remove(path)`: return the value
stored under the key together with the object without that entry. -/
def objRemove : List (String × Json) → String →
    Option (Json × List (String × Json))
  | [], _ => none
  | (k, v) :: rest, x =>
    if k = x then some (v, rest)
    else
      match objRemove rest x with
      | some (v0, rest0) => some (v0, (k, v) :: rest0)
      | none => none

/-- The element loop of the `read_json_array_data!` macro instantiated
at `Json::String(st) => data.mut_X().insert(st)`: every string element
is inserted into the set, every other element is skipped. -/
def readStrings : List Json → List String → List String
  | [], s => s
  | .string st :: rest, s => readStrings rest (setInsert s st).2
  | _ :: rest, s => readStrings rest s

/-- The collocation insertion inside the `from_str` collocations block:
create a fresh bucket `{r}` for a new left token `l`, otherwise insert
`r` into the existing bucket of `l`. -/
def collocAdd (d : TrainingData) (l r : String) : TrainingData :=
  if alistContainsKey d.collocations l then
    { d with collocations := (bucketInsert d.collocations l r).2 }
  else
    { d with collocations := d.collocations ++ [(l, [r])] }

/-- One element of the collocations array in `from_str`: a non-array
element is skipped by the macro's catch-all arm; an array element is
double-popped from the tail (`(ar.pop(), ar.pop())`), and unless the
two popped values are both strings the whole load fails
(`_ => return None`). -/
def collocStep (d : TrainingData) (x : Json) : Option TrainingData :=
  match x with
  | .array ar =>
    match ar.reverse with
    | .string r :: .string l :: _ => some (collocAdd d l r)
    | _ => none
  | _ => some d

/-- The element loop of `read_json_array_data!` instantiated at the
collocations block: process elements in order, aborting the whole load
on the first failing element. -/
def collocFold (d : TrainingData) : List Json → Option TrainingData
  | [] => some d
  | x :: rest =>
    match collocStep d x with
    | some d0 => collocFold d0 rest
    | none => none

/-- One entry of the `ortho_context` object in `from_str`: a value in
the `U64` variant is narrowed by `as u8` (mod 256) and inserted; any
other value is skipped. -/
def orthoStep (d : TrainingData) (kv : String × Json) : TrainingData :=
  match kv.2 with
  | .u64 n =>
    { d with orthographic_context :=
        alistInsertOver d.orthographic_context kv.1 (n % 256) }
  | _ => d

/-- The entry loop over the `ortho_context` object. -/
def orthoFold (d : TrainingData) (kvs : List (String × Json)) : TrainingData :=
  kvs.foldl orthoStep d

/-- `from_str` on an already parsed JSON value: fail unless the value
is an object; then process `abbrev_types`, `sentence_starters`,
`collocations` and `ortho_context` in that order, each removed from
the object and required to have the right top-level shape. -/
def fromJson (j : Json) : Option TrainingData :=
  match j with
  | .object kvs =>
    match objRemove kvs "abbrev_types" with
    | some (.array arr1, kvs1) =>
      match objRemove kvs1 "sentence_starters" with
      | some (.array arr2, kvs2) =>
        match objRemove kvs2 "collocations" with
        | some (.array arr3, kvs3) =>
          match collocFold
              { abbrev_types := readStrings arr1 [], collocations := [],
                sentence_starters := readStrings arr2 [],
                orthographic_context := [] } arr3 with
          | some d3 =>
            match objRemove kvs3 "ortho_context" with
            | some (.object okvs, _) => some (orthoFold d3 okvs)
            | _ => none
          | none => none
        | _ => none
      | _ => none
    | _ => none
  | _ => none

/-- `<TrainingData as FromStr>::from_str`.  The textual JSON parse is
performed by the external `rustc_serialize` library; its outcome is
embedded as `Option Json` (`none` for a parse error), and the rest of
`from_str` is `fromJson`. -/
def TrainingData.from_str : Option Json → Option TrainingData
  | none => none
  | some j => fromJson j

/-! ## The collocation flattening iterator -/

/-- State of `CollocationsIterator`: the outer cursor (entries of the
collocations map not yet consumed) and the optional current pair of
left token and remaining bucket cursor. -/
structure CollocationsIterator where
  iter : List (String × List String)
  cur : Option (String × List String)
deriving Repr

/-- `TrainingData::collocations_iter`. -/
def TrainingData.collocations_iter (d : TrainingData) : CollocationsIterator :=
  { iter := d.collocations, cur := none }

/-- The `cur = None` path of `CollocationsIterator::next`: advance the
outer cursor; a yielded entry with a non-empty bucket is emitted and
becomes the current bucket cursor; an entry with an empty bucket makes
the inner cursor yield `None` at once, so `cur` is cleared and `next`
recurses, i.e. the outer cursor is advanced again; an exhausted outer
cursor is the terminal state. -/
def nextOuter : List (String × List String) →
    Option (String × String) × CollocationsIterator
  | [] => (none, ⟨[], none⟩)
  | (k, v :: vs) :: rest => (some (k, v), ⟨rest, some (k, vs)⟩)
  | (_, []) :: rest => nextOuter rest

/-- `CollocationsIterator::next`: when the inner cursor yields a right
token, emit the pair and keep the inner position; when the current
bucket cursor is exhausted (or absent), clear it and advance the outer
cursor (`nextOuter`, the `recurse` path of the source).  Returns the
emitted item together with the successor state (the Rust method
mutates `self` in place). -/
def CollocationsIterator.next (s : CollocationsIterator) :
    Option (String × String) × CollocationsIterator :=
  match s with
  | ⟨iter, some (k, v :: vs)⟩ => (some (k, v), ⟨iter, some (k, vs)⟩)
  | ⟨iter, some (_, [])⟩ => nextOuter iter
  | ⟨iter, none⟩ => nextOuter iter

/-- `CollocationsIterator::size_hint`:
`(self.iter.size_hint().0, None)` — the outer map iterator reports its
exact remaining length as lower bound. -/
def CollocationsIterator.size_hint (s : CollocationsIterator) :
    Nat × Option Nat :=
  (s.iter.length, none)

/-- The sequence produced by calling `next` repeatedly, up to `fuel`
calls, stopping at the first `none`. -/
def CollocationsIterator.drain : Nat → CollocationsIterator →
    List (String × String)
  | 0, _ => []
  | fuel + 1, s =>
    match s.next with
    | (some p, s1) => p :: CollocationsIterator.drain fuel s1
    | (none, _) => []

/-- The number of pairs an iterator state has left to yield: the pairs
remaining in the current bucket cursor plus all pairs of the
unconsumed outer entries. -/
def CollocationsIterator.pairsLeft (s : CollocationsIterator) : Nat :=
  (s.iter.map (fun p => p.2.length)).sum +
    (match s.cur with | some (_, vs) => vs.length | none => 0)

/-- Reference flattening of a collocations map into pairs. -/
def flattenColl (m : List (String × List String)) : List (String × String) :=
  m.flatMap (fun p => p.2.map (fun v => (p.1, v)))

/-- The pairs still owed by the current bucket cursor. -/
def curPairs : Option (String × List String) → List (String × String)
  | some (k, vs) => vs.map (fun v => (k, v))
  | none => []

/-! ## Derived predicates and concrete fixtures -/

/-- The §3 invariant of the collocations container: a left-token key
exists in the map iff its inner set is non-empty (equivalently, no
entry carries an empty bucket). -/
def NoEmptyBuckets (d : TrainingData) : Prop :=
  ∀ p ∈ d.collocations, p.2 ≠ []

instance (d : TrainingData) : Decidable (NoEmptyBuckets d) :=
  List.decidableBAll _ d.collocations

/-- Occurrence count of a pair in a list of pairs. -/
def countPair : List (String × String) → String × String → Nat
  | [], _ => 0
  | q :: rest, p => (if q = p then 1 else 0) + countPair rest p

/-- Whether the last two elements of an inner collocations array are
both JSON strings (the shape the `(ar.pop(), ar.pop())` double-pop of
`from_str` accepts). -/
def tailTwoStrings (ar : List Json) : Bool :=
  match ar.reverse with
  | .string _ :: .string _ :: _ => true
  | _ => false

/-- Whether an optional field value is present and a JSON array. -/
def optIsArray : Option Json → Bool
  | some v => v.isArrayVal
  | none => false

/-- Whether an optional field value is present and a JSON object. -/
def optIsObject : Option Json → Bool
  | some v => v.isObject
  | none => false

/-- The top-level shape check of `from_str`: the three array fields
present as arrays and `ortho_context` present as an object. -/
def goodShape (kvs : List (String × Json)) : Bool :=
  optIsArray (objLookup kvs "abbrev_types") &&
  optIsArray (objLookup kvs "sentence_starters") &&
  optIsArray (objLookup kvs "collocations") &&
  optIsObject (objLookup kvs "ortho_context")

/-- A document whose first three fields are well-formed but which has
no `ortho_context` field. -/
def docNoOrtho : Json := Json.object [
  ("abbrev_types", Json.array [Json.string "mr"]),
  ("sentence_starters", Json.array [Json.string "the"]),
  ("collocations", Json.array [Json.array [Json.string "a", Json.string "b"]])]

/-- A well-formed document whose collocations hold a three-element
inner array and a two-element inner array. -/
def docTailTwo : Json := Json.object [
  ("abbrev_types", Json.array []),
  ("sentence_starters", Json.array []),
  ("collocations", Json.array [
    Json.array [Json.string "x", Json.string "y", Json.string "z"],
    Json.array [Json.string "u", Json.string "v"]]),
  ("ortho_context", Json.object [])]

/-- A well-formed document with non-string junk elements inside the
two flat string arrays. -/
def docJunkStrings : Json := Json.object [
  ("abbrev_types", Json.array
    [Json.string "mr", Json.u64 3, Json.null, Json.string "dr"]),
  ("sentence_starters", Json.array [Json.boolean true, Json.string "the"]),
  ("collocations", Json.array []),
  ("ortho_context", Json.object [])]

/-- A well-formed document with non-array junk elements inside the
collocations array. -/
def docJunkColloc : Json := Json.object [
  ("abbrev_types", Json.array []),
  ("sentence_starters", Json.array []),
  ("collocations", Json.array [
    Json.string "junk", Json.null, Json.u64 7, Json.object [],
    Json.array [Json.string "a", Json.string "b"]]),
  ("ortho_context", Json.object [])]

/-- A well-formed document whose `ortho_context` mixes an integer
value above 255 with a float and a negative-integer value. -/
def docOrthoMixed : Json := Json.object [
  ("abbrev_types", Json.array []),
  ("sentence_starters", Json.array []),
  ("collocations", Json.array []),
  ("ortho_context", Json.object
    [("a", Json.u64 300), ("b", Json.f64), ("c", Json.i64 (-5))])]

/-- The store of the §8 iterator example, with buckets
`a -> (b, c)` and `d -> (e)`. -/
def dIterExample : TrainingData :=
  { abbrev_types := [], collocations := [("a", ["b", "c"]), ("d", ["e"])],
    sentence_starters := [], orthographic_context := [] }

/-- A store reached by inserting collocation `(a, b)` and then
removing it again: the key `a` stays behind with an empty bucket. -/
def dOrphan : TrainingData :=
  ((TrainingData.mkDefault.insert_collocation "a" "b").2.remove_collocation
    "a" "b").2

/-- A store holding the single collocation `(a, b)`. -/
def dDup1 : TrainingData :=
  (TrainingData.mkDefault.insert_collocation "a" "b").2

/-- The store `dDup1` after inserting the already present `(a, b)`
a second time. -/
def dDup2 : TrainingData :=
  (dDup1.insert_collocation "a" "b").2

/-! ## Helper lemmas: sets and association lists -/

theorem setContains_iff (s : List String) (x : String) :
    setContains s x = true ↔ x ∈ s := by
  induction s with
  | nil => simp [setContains]
  | cons y rest ih =>
    by_cases h : y = x
    · simp [setContains, h]
    · simp [setContains, h, ih, Ne.symm h]

theorem mem_setInsert (s : List String) (x y : String) :
    y ∈ (setInsert s x).2 ↔ y ∈ s ∨ y = x := by
  by_cases h : setContains s x = true
  · have hx : x ∈ s := (setContains_iff s x).mp h
    simp only [setInsert, h, if_true]
    exact ⟨Or.inl, fun hy => hy.elim id (fun e => e ▸ hx)⟩
  · simp [setInsert, h]

theorem setInsert_snd_length (s : List String) (x : String) :
    (setInsert s x).2.length =
      if setContains s x then s.length else s.length + 1 := by
  by_cases h : setContains s x = true <;> simp [setInsert, h]

theorem setInsert_ne_nil (s : List String) (x : String) :
    (setInsert s x).2 ≠ [] := by
  by_cases h : setContains s x = true
  · have hx : x ∈ s := (setContains_iff s x).mp h
    simp only [setInsert, h, if_true]
    exact List.ne_nil_of_mem hx
  · simp [setInsert, h]

theorem setContains_setInsert_self (s : List String) (x : String) :
    setContains (setInsert s x).2 x = true := by
  rw [setContains_iff, mem_setInsert]
  exact Or.inr rfl

theorem alistLookup_append_of_none {α : Type} (m : List (String × α))
    (k : String) (b : α) (h : alistLookup m k = none) :
    alistLookup (m ++ [(k, b)]) k = some b := by
  induction m with
  | nil => simp [alistLookup]
  | cons p rest ih =>
    obtain ⟨k0, v0⟩ := p
    by_cases hk : k0 = k
    · simp [alistLookup, hk] at h
    · simp only [alistLookup, hk, if_false] at h
      simp only [List.cons_append, alistLookup, hk, if_false]
      exact ih h

theorem objLookup_none_remove (kvs : List (String × Json)) (k : String)
    (h : objLookup kvs k = none) : objRemove kvs k = none := by
  induction kvs with
  | nil => simp [objRemove]
  | cons p rest ih =>
    obtain ⟨k0, v0⟩ := p
    by_cases hk : k0 = k
    · simp [objLookup, hk] at h
    · simp only [objLookup, hk, if_false] at h
      simp only [objRemove, hk, if_false, ih h]

theorem objRemove_lookup (kvs : List (String × Json)) (k : String)
    (v : Json) (rest : List (String × Json))
    (h : objRemove kvs k = some (v, rest)) : objLookup kvs k = some v := by
  induction kvs generalizing v rest with
  | nil => simp [objRemove] at h
  | cons p tail ih =>
    obtain ⟨k0, v0⟩ := p
    by_cases hk : k0 = k
    · simp only [objRemove, hk, if_true, Option.some.injEq, Prod.mk.injEq] at h
      simp [objLookup, hk, h.1]
    · simp only [objRemove, hk, if_false] at h
      simp only [objLookup, hk, if_false]
      cases h0 : objRemove tail k with
      | none => simp [h0] at h
      | some pr =>
        obtain ⟨v1, rest1⟩ := pr
        simp only [h0, Option.some.injEq, Prod.mk.injEq] at h
        exact h.1 ▸ ih v1 rest1 h0

theorem objRemove_lookup_other (kvs : List (String × Json)) (k x : String)
    (v : Json) (rest : List (String × Json)) (hne : k ≠ x)
    (h : objRemove kvs x = some (v, rest)) :
    objLookup rest k = objLookup kvs k := by
  induction kvs generalizing v rest with
  | nil => simp [objRemove] at h
  | cons p tail ih =>
    obtain ⟨k0, v0⟩ := p
    by_cases hk : k0 = x
    · simp only [objRemove, hk, if_true, Option.some.injEq, Prod.mk.injEq] at h
      have hkk : k0 ≠ k := by rw [hk]; exact fun e => hne e.symm
      rw [← h.2]
      simp [objLookup, hkk]
    · simp only [objRemove, hk, if_false] at h
      cases h0 : objRemove tail x with
      | none => simp [h0] at h
      | some pr =>
        obtain ⟨v1, rest1⟩ := pr
        simp only [h0, Option.some.injEq, Prod.mk.injEq] at h
        rw [← h.2]
        by_cases hkk : k0 = k
        · simp [objLookup, hkk]
        · simp only [objLookup, hkk, if_false]
          exact ih v1 rest1 h0

/-! ## Helper lemmas: collocation lengths and bucket updates -/

theorem foldl_add_length (m : List (String × List String)) (acc : Nat) :
    m.foldl (fun a p => a + p.2.length) acc =
      acc + (m.map (fun p => p.2.length)).sum := by
  induction m generalizing acc with
  | nil => simp
  | cons p rest ih =>
    simp only [List.foldl_cons, List.map_cons, List.sum_cons, ih]
    omega

theorem collocations_len_eq_sum (d : TrainingData) :
    d.collocations_len = (d.collocations.map (fun p => p.2.length)).sum := by
  unfold TrainingData.collocations_len
  simpa using foldl_add_length d.collocations 0

theorem bucketInsert_spec (m : List (String × List String)) (l r : String)
    (b : List String) (h : alistLookup m l = some b) :
    (bucketInsert m l r).1 = (setInsert b r).1 ∧
    alistLookup (bucketInsert m l r).2 l = some (setInsert b r).2 ∧
    ((bucketInsert m l r).2.map (fun p => p.2.length)).sum =
      (m.map (fun p => p.2.length)).sum +
        (if setContains b r then 0 else 1) := by
  induction m with
  | nil => simp [alistLookup] at h
  | cons p rest ih =>
    obtain ⟨k, bucket⟩ := p
    by_cases hk : k = l
    · have hb : bucket = b := by
        simpa [alistLookup, hk] using h
      subst hb
      refine ⟨by simp [bucketInsert, hk], ?_, ?_⟩
      · simp [bucketInsert, alistLookup, hk]
      · simp only [bucketInsert, hk, if_true, List.map_cons, List.sum_cons,
          setInsert_snd_length]
        by_cases hc : setContains bucket r = true <;> simp [hc]
        omega
    · have h0 : alistLookup rest l = some b := by
        simpa [alistLookup, hk] using h
      obtain ⟨ih1, ih2, ih3⟩ := ih h0
      refine ⟨by simp [bucketInsert, hk, ih1], ?_, ?_⟩
      · simp [bucketInsert, alistLookup, hk, ih2]
      · simp only [bucketInsert, hk, if_false, List.map_cons, List.sum_cons, ih3]
        omega

theorem bucketInsert_append_of_none (m : List (String × List String))
    (l r : String) (b0 : List String) (h : alistLookup m l = none) :
    bucketInsert (m ++ [(l, b0)]) l r =
      ((setInsert b0 r).1, m ++ [(l, (setInsert b0 r).2)]) := by
  induction m with
  | nil => simp [bucketInsert]
  | cons p rest ih =>
    obtain ⟨k, bucket⟩ := p
    by_cases hk : k = l
    · simp [alistLookup, hk] at h
    · have h0 : alistLookup rest l = none := by
        simpa [alistLookup, hk] using h
      simp [bucketInsert, hk, ih h0]

theorem mem_bucketInsert (m : List (String × List String)) (l r : String)
    (p : String × List String) (hp : p ∈ (bucketInsert m l r).2) :
    p ∈ m ∨ ∃ b, (l, b) ∈ m ∧ p = (l, (setInsert b r).2) := by
  induction m with
  | nil => simp [bucketInsert] at hp
  | cons q rest ih =>
    obtain ⟨k, bucket⟩ := q
    by_cases hk : k = l
    · subst hk
      simp only [bucketInsert, if_true] at hp
      rcases List.mem_cons.mp hp with h1 | h1
      · exact Or.inr ⟨bucket, List.mem_cons_self _ _, h1⟩
      · exact Or.inl (List.mem_cons_of_mem _ h1)
    · simp only [bucketInsert, hk, if_false] at hp
      rcases List.mem_cons.mp hp with h1 | h1
      · exact Or.inl (h1 ▸ List.mem_cons_self _ _)
      · rcases ih h1 with h2 | ⟨b, hb, hpb⟩
        · exact Or.inl (List.mem_cons_of_mem _ h2)
        · exact Or.inr ⟨b, List.mem_cons_of_mem _ hb, hpb⟩

/-! ## Helper lemmas: insert_collocation and collocAdd -/

theorem insert_collocation_contains (d : TrainingData) (l r : String) :
    (d.insert_collocation l r).2.contains_collocation l r = true := by
  unfold TrainingData.insert_collocation TrainingData.contains_collocation
  by_cases hk : alistContainsKey d.collocations l = true
  · obtain ⟨b, hb⟩ : ∃ b, alistLookup d.collocations l = some b := by
      unfold alistContainsKey at hk
      exact Option.isSome_iff_exists.mp hk
    obtain ⟨-, h2, -⟩ := bucketInsert_spec d.collocations l r b hb
    rw [if_pos hk, h2]
    exact setContains_setInsert_self b r
  · have hnone : alistLookup d.collocations l = none := by
      unfold alistContainsKey at hk
      exact Option.not_isSome_iff_eq_none.mp hk
    have happ : alistLookup (d.collocations ++ [(l, [])]) l = some [] :=
      alistLookup_append_of_none d.collocations l [] hnone
    obtain ⟨-, h2, -⟩ :=
      bucketInsert_spec (d.collocations ++ [(l, [])]) l r [] happ
    rw [if_neg hk, h2]
    exact setContains_setInsert_self [] r

theorem insert_collocation_len (d : TrainingData) (l r : String) :
    (d.insert_collocation l r).2.collocations_len =
      d.collocations_len +
        (if d.contains_collocation l r then 0 else 1) := by
  rw [collocations_len_eq_sum, collocations_len_eq_sum]
  unfold TrainingData.insert_collocation TrainingData.contains_collocation
  by_cases hk : alistContainsKey d.collocations l = true
  · obtain ⟨b, hb⟩ : ∃ b, alistLookup d.collocations l = some b := by
      unfold alistContainsKey at hk
      exact Option.isSome_iff_exists.mp hk
    obtain ⟨-, -, h3⟩ := bucketInsert_spec d.collocations l r b hb
    rw [if_pos hk, h3, hb]
  · have hnone : alistLookup d.collocations l = none := by
      unfold alistContainsKey at hk
      exact Option.not_isSome_iff_eq_none.mp hk
    have happ : alistLookup (d.collocations ++ [(l, [])]) l = some [] :=
      alistLookup_append_of_none d.collocations l [] hnone
    obtain ⟨-, -, h3⟩ :=
      bucketInsert_spec (d.collocations ++ [(l, [])]) l r [] happ
    rw [if_neg hk, h3, hnone]
    simp [setContains]

/-- `collocAdd` builds the same collocations map as `insert_collocation`
(the `from_str` block inlines the fresh-bucket case). -/
theorem collocAdd_eq_insert (d : TrainingData) (l r : String) :
    collocAdd d l r = (d.insert_collocation l r).2 := by
  unfold collocAdd TrainingData.insert_collocation
  by_cases hk : alistContainsKey d.collocations l = true
  · rw [if_pos hk, if_pos hk]
  · have hnone : alistLookup d.collocations l = none := by
      unfold alistContainsKey at hk
      exact Option.not_isSome_iff_eq_none.mp hk
    have happ := bucketInsert_append_of_none d.collocations l r [] hnone
    rw [if_neg hk, if_neg hk]
    simp only [happ]
    simp [setInsert, setContains]

/-! ## Helper lemmas: the no-empty-bucket invariant -/

theorem insert_collocation_noEmpty (d : TrainingData) (l r : String)
    (h : NoEmptyBuckets d) : NoEmptyBuckets (d.insert_collocation l r).2 := by
  intro p hp
  unfold TrainingData.insert_collocation at hp
  by_cases hk : alistContainsKey d.collocations l = true
  · rw [if_pos hk] at hp
    rcases mem_bucketInsert d.collocations l r p hp with h1 | ⟨b, -, hpb⟩
    · exact h p h1
    · rw [hpb]
      exact setInsert_ne_nil b r
  · have hnone : alistLookup d.collocations l = none := by
      unfold alistContainsKey at hk
      exact Option.not_isSome_iff_eq_none.mp hk
    have happ := bucketInsert_append_of_none d.collocations l r [] hnone
    rw [if_neg hk] at hp
    simp only [happ] at hp
    rcases List.mem_append.mp hp with h1 | h1
    · exact h p h1
    · rw [List.mem_singleton.mp h1]
      exact setInsert_ne_nil [] r

theorem collocAdd_noEmpty (d : TrainingData) (l r : String)
    (h : NoEmptyBuckets d) : NoEmptyBuckets (collocAdd d l r) := by
  rw [collocAdd_eq_insert]
  exact insert_collocation_noEmpty d l r h

theorem collocFold_noEmpty (arr : List Json) (d d1 : TrainingData)
    (h : NoEmptyBuckets d) (hf : collocFold d arr = some d1) :
    NoEmptyBuckets d1 := by
  induction arr generalizing d with
  | nil =>
    simp only [collocFold, Option.some.injEq] at hf
    exact hf ▸ h
  | cons x rest ih =>
    simp only [collocFold] at hf
    cases hs : collocStep d x with
    | none => simp [hs] at hf
    | some d0 =>
      rw [hs] at hf
      have hd0 : NoEmptyBuckets d0 := by
        unfold collocStep at hs
        cases x with
        | array ar =>
          cases har : ar.reverse with
          | nil => simp [har] at hs
          | cons a tl =>
            cases a with
            | string r0 =>
              cases tl with
              | nil => simp [har] at hs
              | cons b tl2 =>
                cases b with
                | string l0 =>
                  simp only [har, Option.some.injEq] at hs
                  exact hs ▸ collocAdd_noEmpty d l0 r0 h
                | null => simp [har] at hs
                | boolean _ => simp [har] at hs
                | u64 _ => simp [har] at hs
                | i64 _ => simp [har] at hs
                | f64 => simp [har] at hs
                | array _ => simp [har] at hs
                | object _ => simp [har] at hs
            | null => simp [har] at hs
            | boolean _ => simp [har] at hs
            | u64 _ => simp [har] at hs
            | i64 _ => simp [har] at hs
            | f64 => simp [har] at hs
            | array _ => simp [har] at hs
            | object _ => simp [har] at hs
        | null => exact (Option.some.inj hs) ▸ h
        | boolean _ => exact (Option.some.inj hs) ▸ h
        | u64 _ => exact (Option.some.inj hs) ▸ h
        | i64 _ => exact (Option.some.inj hs) ▸ h
        | f64 => exact (Option.some.inj hs) ▸ h
        | string _ => exact (Option.some.inj hs) ▸ h
        | object _ => exact (Option.some.inj hs) ▸ h
      exact ih d0 hd0 hf

theorem orthoFold_collocations (kvs : List (String × Json)) (d : TrainingData) :
    (orthoFold d kvs).collocations = d.collocations := by
  induction kvs generalizing d with
  | nil => rfl
  | cons kv rest ih =>
    have hstep : (orthoStep d kv).collocations = d.collocations := by
      unfold orthoStep
      cases kv.2 <;> rfl
    calc (orthoFold d (kv :: rest)).collocations
        = (orthoFold (orthoStep d kv) rest).collocations := rfl
      _ = (orthoStep d kv).collocations := ih (orthoStep d kv)
      _ = d.collocations := hstep

theorem fromJson_noEmpty (j : Json) (d : TrainingData)
    (h : fromJson j = some d) : NoEmptyBuckets d := by
  unfold fromJson at h
  split at h
  case _ kvs =>
    split at h
    case _ arr1 kvs1 _ =>
      split at h
      case _ arr2 kvs2 _ =>
        split at h
        case _ arr3 kvs3 _ =>
          split at h
          case _ d3 h4 =>
            split at h
            case _ okvs kvs5 _ =>
              have hd3 : NoEmptyBuckets d3 :=
                collocFold_noEmpty arr3 _ d3 (by intro p hp; simp at hp) h4
              intro p hp
              rw [← Option.some.inj h, orthoFold_collocations] at hp
              exact hd3 p hp
            case _ => exact Option.noConfusion h
          case _ => exact Option.noConfusion h
        case _ => exact Option.noConfusion h
      case _ => exact Option.noConfusion h
    case _ => exact Option.noConfusion h
  case _ => exact Option.noConfusion h

/-! ## Helper lemmas: the flattening iterator -/

theorem flatten_cons (p : String × List String)
    (rest : List (String × List String)) :
    flattenColl (p :: rest) =
      p.2.map (fun v => (p.1, v)) ++ flattenColl rest := by
  simp [flattenColl]

theorem flatten_length (m : List (String × List String)) :
    (flattenColl m).length = (m.map (fun p => p.2.length)).sum := by
  induction m with
  | nil => rfl
  | cons p rest ih =>
    rw [flatten_cons, List.length_append, List.length_map, ih]
    simp

theorem flatten_eq_nil_of_sum_zero (m : List (String × List String))
    (h : (m.map (fun p => p.2.length)).sum = 0) : flattenColl m = [] := by
  induction m with
  | nil => rfl
  | cons p rest ih =>
    simp only [List.map_cons, List.sum_cons] at h
    have h1 : p.2.length = 0 := by omega
    have h2 : (rest.map (fun p => p.2.length)).sum = 0 := by omega
    have h3 : p.2 = [] := List.length_eq_zero.mp h1
    rw [flatten_cons, h3, ih h2]
    rfl

theorem drain_spec (fuel : Nat) :
    ∀ (it : List (String × List String)) (cur : Option (String × List String)),
      CollocationsIterator.pairsLeft ⟨it, cur⟩ ≤ fuel →
      CollocationsIterator.drain fuel ⟨it, cur⟩ = curPairs cur ++ flattenColl it := by
  induction fuel with
  | zero =>
    intro it cur h
    unfold CollocationsIterator.pairsLeft at h
    cases cur with
    | none =>
      simp only at h
      have hs : (it.map (fun p => p.2.length)).sum = 0 := by omega
      simp [CollocationsIterator.drain, curPairs,
        flatten_eq_nil_of_sum_zero it hs]
    | some kv =>
      obtain ⟨k, vs⟩ := kv
      simp only at h
      have hs : (it.map (fun p => p.2.length)).sum = 0 := by omega
      have hv : vs.length = 0 := by omega
      have hv2 : vs = [] := List.length_eq_zero.mp hv
      simp [CollocationsIterator.drain, curPairs, hv2,
        flatten_eq_nil_of_sum_zero it hs]
  | succ fuel ih =>
    intro it cur h
    have haux : ∀ it2 : List (String × List String),
        (it2.map (fun p => p.2.length)).sum ≤ fuel + 1 →
        CollocationsIterator.drain (fuel + 1) ⟨it2, none⟩ = flattenColl it2 := by
      intro it2
      induction it2 with
      | nil => intro _; rfl
      | cons p rest ih2 =>
        obtain ⟨k, b⟩ := p
        cases b with
        | nil =>
          intro h2
          simp only [List.map_cons, List.sum_cons, List.length_nil] at h2
          have step : CollocationsIterator.drain (fuel + 1) ⟨(k, []) :: rest, none⟩
              = CollocationsIterator.drain (fuel + 1) ⟨rest, none⟩ := rfl
          rw [step, ih2 (by omega)]
          simp [flattenColl]
        | cons v vs =>
          intro h2
          simp only [List.map_cons, List.sum_cons, List.length_cons] at h2
          have step : CollocationsIterator.drain (fuel + 1) ⟨(k, v :: vs) :: rest, none⟩
              = (k, v) :: CollocationsIterator.drain fuel ⟨rest, some (k, vs)⟩ := rfl
          rw [step, ih rest (some (k, vs))
            (by unfold CollocationsIterator.pairsLeft; simp only; omega)]
          simp [flattenColl, curPairs]
    unfold CollocationsIterator.pairsLeft at h
    cases cur with
    | none =>
      simp only at h
      rw [haux it (by omega)]
      simp [curPairs]
    | some kv =>
      obtain ⟨k, vs⟩ := kv
      cases vs with
      | nil =>
        simp only at h
        have step : CollocationsIterator.drain (fuel + 1) ⟨it, some (k, [])⟩
            = CollocationsIterator.drain (fuel + 1) ⟨it, none⟩ := rfl
        rw [step, haux it (by omega)]
        simp [curPairs]
      | cons v vs2 =>
        simp only [List.length_cons] at h
        have step : CollocationsIterator.drain (fuel + 1) ⟨it, some (k, v :: vs2)⟩
            = (k, v) :: CollocationsIterator.drain fuel ⟨it, some (k, vs2)⟩ := rfl
        rw [step, ih it (some (k, vs2))
          (by unfold CollocationsIterator.pairsLeft; simp only; omega)]
        simp [curPairs]

theorem nextOuter_none (it : List (String × List String))
    (h : (nextOuter it).1 = none) : nextOuter it = (none, ⟨[], none⟩) := by
  induction it with
  | nil => rfl
  | cons p rest ih =>
    obtain ⟨k, b⟩ := p
    cases b with
    | nil => exact ih h
    | cons v vs => simp [nextOuter] at h

theorem next_none (s : CollocationsIterator) (h : s.next.1 = none) :
    s.next = (none, ⟨[], none⟩) := by
  obtain ⟨it, cur⟩ := s
  cases cur with
  | none => exact nextOuter_none it h
  | some kv =>
    obtain ⟨k, vs⟩ := kv
    cases vs with
    | nil => exact nextOuter_none it h
    | cons v vs2 => simp [CollocationsIterator.next] at h

/-! ## Helper lemmas: counting pairs -/

theorem countPair_append (xs ys : List (String × String))
    (p : String × String) :
    countPair (xs ++ ys) p = countPair xs p + countPair ys p := by
  induction xs with
  | nil => simp [countPair]
  | cons q rest ih =>
    show (if q = p then 1 else 0) + countPair (rest ++ ys) p =
      ((if q = p then 1 else 0) + countPair rest p) + countPair ys p
    rw [ih]
    omega

theorem countPair_map_ne (k : String) (b : List String) (l r : String)
    (h : k ≠ l) : countPair (b.map (fun v => (k, v))) (l, r) = 0 := by
  induction b with
  | nil => rfl
  | cons v vs ih =>
    simp only [List.map_cons, countPair, ih]
    have : (k, v) ≠ (l, r) := by
      intro e
      exact h (congrArg Prod.fst e)
    simp [this]

theorem countPair_bucket (k : String) (b : List String) (hb : b.Nodup)
    (r : String) :
    countPair (b.map (fun v => (k, v))) (k, r) =
      if setContains b r then 1 else 0 := by
  induction b with
  | nil => simp [countPair, setContains]
  | cons v vs ih =>
    obtain ⟨hvn, hvs⟩ := List.nodup_cons.mp hb
    simp only [List.map_cons, countPair, ih hvs]
    by_cases hv : v = r
    · subst hv
      have hc : setContains vs v = false := by
        cases hcc : setContains vs v
        · rfl
        · exact absurd ((setContains_iff vs v).mp hcc) hvn
      simp [setContains, hc]
    · have : (k, v) ≠ (k, r) := by
        intro e
        exact hv (congrArg Prod.snd e)
      simp [setContains, this, hv]

theorem countPair_flatten_nokey (m : List (String × List String))
    (l r : String) (h : ∀ p ∈ m, p.1 ≠ l) :
    countPair (flattenColl m) (l, r) = 0 := by
  induction m with
  | nil => rfl
  | cons p rest ih =>
    have h1 : p.1 ≠ l := h p (List.mem_cons_self _ _)
    have h2 : ∀ q ∈ rest, q.1 ≠ l := fun q hq => h q (List.mem_cons_of_mem _ hq)
    have : flattenColl (p :: rest) =
        p.2.map (fun v => (p.1, v)) ++ flattenColl rest := by
      simp [flattenColl]
    rw [this, countPair_append, countPair_map_ne p.1 p.2 l r h1, ih h2]

theorem countPair_flatten (m : List (String × List String))
    (hk : (m.map Prod.fst).Nodup) (hb : ∀ p ∈ m, p.2.Nodup) (l r : String) :
    countPair (flattenColl m) (l, r) =
      if (match alistLookup m l with
          | some b => setContains b r
          | none => false) = true then 1 else 0 := by
  induction m with
  | nil => simp [flattenColl, countPair, alistLookup]
  | cons p rest ih =>
    obtain ⟨k, b⟩ := p
    obtain ⟨hkn, hkrest⟩ := List.nodup_cons.mp hk
    have hbrest : ∀ q ∈ rest, q.2.Nodup :=
      fun q hq => hb q (List.mem_cons_of_mem _ hq)
    have hflat : flattenColl ((k, b) :: rest) =
        b.map (fun v => (k, v)) ++ flattenColl rest := by
      simp [flattenColl]
    rw [hflat, countPair_append]
    by_cases hkl : k = l
    · subst hkl
      have hrest0 : countPair (flattenColl rest) (k, r) = 0 := by
        refine countPair_flatten_nokey rest k r (fun q hq e => hkn ?_)
        rw [← e]
        exact List.mem_map.mpr ⟨q, hq, rfl⟩
      rw [countPair_bucket k b (hb (k, b) (List.mem_cons_self _ _)) r, hrest0]
      simp [alistLookup]
    · rw [countPair_map_ne k b l r hkl, ih hkrest hbrest]
      simp [alistLookup, hkl]

/-! ## Helper lemmas: ortho_context loading -/

theorem alistInsertOver_lookup_self {α : Type} (m : List (String × α))
    (k : String) (v : α) :
    alistLookup (alistInsertOver m k v) k = some v := by
  induction m with
  | nil => simp [alistInsertOver, alistLookup]
  | cons p rest ih =>
    obtain ⟨k0, v0⟩ := p
    by_cases hk : k0 = k
    · simp [alistInsertOver, alistLookup, hk]
    · simp [alistInsertOver, alistLookup, hk, ih]

theorem alistInsertOver_lookup_other {α : Type} (m : List (String × α))
    (k x : String) (v : α) (h : k ≠ x) :
    alistLookup (alistInsertOver m k v) x = alistLookup m x := by
  induction m with
  | nil => simp [alistInsertOver, alistLookup, h]
  | cons p rest ih =>
    obtain ⟨k0, v0⟩ := p
    by_cases hk : k0 = k
    · subst hk
      simp [alistInsertOver, alistLookup, h]
    · simp only [alistInsertOver, hk, if_false]
      by_cases hx : k0 = x
      · simp [alistLookup, hx]
      · simp [alistLookup, hx, ih]

theorem orthoStep_lookup_other (d : TrainingData) (kv : String × Json)
    (k : String) (h : kv.1 ≠ k) :
    alistLookup (orthoStep d kv).orthographic_context k =
      alistLookup d.orthographic_context k := by
  unfold orthoStep
  cases kv.2 with
  | u64 n => exact alistInsertOver_lookup_other _ kv.1 k _ h
  | null => rfl
  | boolean _ => rfl
  | i64 _ => rfl
  | f64 => rfl
  | string _ => rfl
  | array _ => rfl
  | object _ => rfl

theorem orthoFold_lookup_nokey (okvs : List (String × Json))
    (d : TrainingData) (k : String) (h : ∀ p ∈ okvs, p.1 ≠ k) :
    alistLookup (orthoFold d okvs).orthographic_context k =
      alistLookup d.orthographic_context k := by
  induction okvs generalizing d with
  | nil => rfl
  | cons kv rest ih =>
    have h1 : kv.1 ≠ k := h kv (List.mem_cons_self _ _)
    have h2 : ∀ p ∈ rest, p.1 ≠ k := fun p hp => h p (List.mem_cons_of_mem _ hp)
    calc alistLookup (orthoFold (orthoStep d kv) rest).orthographic_context k
        = alistLookup (orthoStep d kv).orthographic_context k := ih _ h2
      _ = alistLookup d.orthographic_context k := orthoStep_lookup_other d kv k h1

theorem orthoFold_u64 (okvs : List (String × Json))
    (hk : (okvs.map Prod.fst).Nodup) (d : TrainingData) (k : String) (n : Nat)
    (hmem : (k, Json.u64 n) ∈ okvs) :
    alistLookup (orthoFold d okvs).orthographic_context k = some (n % 256) := by
  induction okvs generalizing d with
  | nil => simp at hmem
  | cons kv rest ih =>
    obtain ⟨hkn, hkrest⟩ := List.nodup_cons.mp hk
    rcases List.mem_cons.mp hmem with h1 | h1
    · rw [← h1]
      rw [← h1] at hkn
      have hnok : ∀ p ∈ rest, p.1 ≠ k := by
        intro p hp e
        refine hkn ?_
        rw [← e]
        exact List.mem_map.mpr ⟨p, hp, rfl⟩
      calc alistLookup (orthoFold (orthoStep d (k, Json.u64 n)) rest).orthographic_context k
          = alistLookup (orthoStep d (k, Json.u64 n)).orthographic_context k :=
            orthoFold_lookup_nokey rest _ k hnok
        _ = some (n % 256) := alistInsertOver_lookup_self _ k _
    · exact ih hkrest (orthoStep d kv) h1

theorem orthoFold_skip (okvs : List (String × Json)) (d : TrainingData)
    (k : String) (hnone : alistLookup d.orthographic_context k = none)
    (hbad : ∀ v, (k, v) ∈ okvs → v.isU64 = false) :
    alistLookup (orthoFold d okvs).orthographic_context k = none := by
  induction okvs generalizing d with
  | nil => exact hnone
  | cons kv rest ih =>
    obtain ⟨k0, v0⟩ := kv
    have hstep : alistLookup (orthoStep d (k0, v0)).orthographic_context k = none := by
      by_cases hk : k0 = k
      · subst hk
        have hv : v0.isU64 = false := hbad v0 (List.mem_cons_self _ _)
        cases v0 with
        | u64 n => simp [Json.isU64] at hv
        | null => exact hnone
        | boolean _ => exact hnone
        | i64 _ => exact hnone
        | f64 => exact hnone
        | string _ => exact hnone
        | array _ => exact hnone
        | object _ => exact hnone
      · rw [orthoStep_lookup_other d (k0, v0) k hk]
        exact hnone
    exact ih (orthoStep d (k0, v0)) hstep
      (fun v hv => hbad v (List.mem_cons_of_mem _ hv))

/-! ## Helper lemmas: string arrays and collocation elements -/

theorem mem_readStrings (arr : List Json) (s : List String) (x : String) :
    x ∈ readStrings arr s ↔ x ∈ s ∨ Json.string x ∈ arr := by
  induction arr generalizing s with
  | nil => simp [readStrings]
  | cons hd rest ih =>
    cases hd with
    | string st =>
      simp only [readStrings]
      rw [ih]
      rw [mem_setInsert]
      constructor
      · rintro ((hx | he) | hr)
        · exact Or.inl hx
        · exact Or.inr (by rw [he]; exact List.mem_cons_self _ _)
        · exact Or.inr (List.mem_cons_of_mem _ hr)
      · rintro (hx | hm)
        · exact Or.inl (Or.inl hx)
        · rcases List.mem_cons.mp hm with he | hr
          · exact Or.inl (Or.inr (Json.string.inj he))
          · exact Or.inr hr
    | null => simp only [readStrings]; rw [ih]; simp
    | boolean b => simp only [readStrings]; rw [ih]; simp
    | u64 n => simp only [readStrings]; rw [ih]; simp
    | i64 n => simp only [readStrings]; rw [ih]; simp
    | f64 => simp only [readStrings]; rw [ih]; simp
    | array a => simp only [readStrings]; rw [ih]; simp
    | object o => simp only [readStrings]; rw [ih]; simp

theorem collocStep_tail_two (d : TrainingData) (pre : List Json)
    (x y : String) :
    collocStep d (Json.array (pre ++ [Json.string x, Json.string y])) =
      some (collocAdd d x y) := by
  have hrev : (pre ++ [Json.string x, Json.string y]).reverse =
      Json.string y :: Json.string x :: pre.reverse := by
    simp
  simp only [collocStep, hrev]

theorem collocStep_bad (d : TrainingData) (ar : List Json)
    (h : tailTwoStrings ar = false) :
    collocStep d (Json.array ar) = none := by
  unfold tailTwoStrings at h
  simp only [collocStep]
  cases har : ar.reverse with
  | nil => rfl
  | cons a tl =>
    rw [har] at h
    cases tl with
    | nil => cases a <;> rfl
    | cons b tl2 =>
      cases a with
      | string r0 =>
        cases b with
        | string l0 => simp at h
        | null => rfl
        | boolean _ => rfl
        | u64 _ => rfl
        | i64 _ => rfl
        | f64 => rfl
        | array _ => rfl
        | object _ => rfl
      | null => rfl
      | boolean _ => rfl
      | u64 _ => rfl
      | i64 _ => rfl
      | f64 => rfl
      | array _ => rfl
      | object _ => rfl

theorem collocStep_nonarray (d : TrainingData) (x : Json)
    (h : x.isArrayVal = false) : collocStep d x = some d := by
  cases x with
  | array a => simp [Json.isArrayVal] at h
  | null => rfl
  | boolean _ => rfl
  | u64 _ => rfl
  | i64 _ => rfl
  | f64 => rfl
  | string _ => rfl
  | object _ => rfl

theorem collocFold_bad_mem (pre suf ar : List Json)
    (h : tailTwoStrings ar = false) :
    ∀ d : TrainingData, collocFold d (pre ++ Json.array ar :: suf) = none := by
  induction pre with
  | nil =>
    intro d
    simp only [List.nil_append, collocFold, collocStep_bad d ar h]
  | cons x rest ih =>
    intro d
    simp only [List.cons_append, collocFold]
    cases hs : collocStep d x with
    | none => rfl
    | some d0 => exact ih d0

theorem collocFold_skip (d : TrainingData) (x : Json) (rest : List Json)
    (h : x.isArrayVal = false) :
    collocFold d (x :: rest) = collocFold d rest := by
  simp only [collocFold, collocStep_nonarray d x h]

/-! ## Helper lemmas: shape of the top-level object -/

theorem length_le_sum (m : List (String × List String)) :
    (∀ p ∈ m, p.2 ≠ []) → m.length ≤ (m.map (fun p => p.2.length)).sum := by
  induction m with
  | nil => intro _; simp
  | cons p rest ih =>
    intro h
    have h1 : p.2 ≠ [] := h p (List.mem_cons_self _ _)
    have h2 : 0 < p.2.length := List.length_pos.mpr h1
    have h3 := ih (fun q hq => h q (List.mem_cons_of_mem _ hq))
    simp only [List.length_cons, List.map_cons, List.sum_cons]
    omega

theorem fromJson_badShape (kvs : List (String × Json))
    (h : goodShape kvs = false) : fromJson (Json.object kvs) = none := by
  cases hres : fromJson (Json.object kvs) with
  | none => rfl
  | some d =>
    exfalso
    simp only [fromJson] at hres
    split at hres
    case _ arr1 kvs1 heq1 =>
      split at hres
      case _ arr2 kvs2 heq2 =>
        split at hres
        case _ arr3 kvs3 heq3 =>
          split at hres
          case _ d3 heq4 =>
            split at hres
            case _ okvs kvs5 heq5 =>
              have l1 : objLookup kvs "abbrev_types" = some (Json.array arr1) :=
                objRemove_lookup kvs "abbrev_types" _ kvs1 heq1
              have l2 : objLookup kvs1 "sentence_starters" =
                  some (Json.array arr2) :=
                objRemove_lookup kvs1 "sentence_starters" _ kvs2 heq2
              rw [objRemove_lookup_other kvs "sentence_starters" "abbrev_types"
                _ kvs1 (by decide) heq1] at l2
              have l3 : objLookup kvs2 "collocations" = some (Json.array arr3) :=
                objRemove_lookup kvs2 "collocations" _ kvs3 heq3
              rw [objRemove_lookup_other kvs1 "collocations" "sentence_starters"
                _ kvs2 (by decide) heq2] at l3
              rw [objRemove_lookup_other kvs "collocations" "abbrev_types"
                _ kvs1 (by decide) heq1] at l3
              have l5 : objLookup kvs3 "ortho_context" = some (Json.object okvs) :=
                objRemove_lookup kvs3 "ortho_context" _ kvs5 heq5
              rw [objRemove_lookup_other kvs2 "ortho_context" "collocations"
                _ kvs3 (by decide) heq3] at l5
              rw [objRemove_lookup_other kvs1 "ortho_context" "sentence_starters"
                _ kvs2 (by decide) heq2] at l5
              rw [objRemove_lookup_other kvs "ortho_context" "abbrev_types"
                _ kvs1 (by decide) heq1] at l5
              unfold goodShape at h
              rw [l1, l2, l3, l5] at h
              simp [optIsArray, optIsObject, Json.isArrayVal, Json.isObject] at h
            case _ => exact Option.noConfusion hres
          case _ => exact Option.noConfusion hres
        case _ => exact Option.noConfusion hres
      case _ => exact Option.noConfusion hres
    case _ => exact Option.noConfusion hres

/-! ## Claims -/

/-- C1: for every input, if the text does not parse as a JSON object,
or any of the four fields `abbrev_types`, `sentence_starters`,
`collocations`, `ortho_context` is missing or has the wrong top-level
shape, then `from_str` returns the uniform failure value `none` and no
partially populated store is returned; in particular a document with
well-formed `abbrev_types`, `sentence_starters` and `collocations` but
no `ortho_context` field fails entirely. -/
theorem C1_uniform_failure :
    TrainingData.from_str none = none ∧
    (∀ j : Json, j.isObject = false → TrainingData.from_str (some j) = none) ∧
    (∀ kvs : List (String × Json), goodShape kvs = false →
      TrainingData.from_str (some (Json.object kvs)) = none) ∧
    TrainingData.from_str (some docNoOrtho) = none := by
  refine ⟨rfl, ?_, ?_, rfl⟩
  · intro j hj
    cases j with
    | object kvs => simp [Json.isObject] at hj
    | null => rfl
    | boolean _ => rfl
    | u64 _ => rfl
    | i64 _ => rfl
    | f64 => rfl
    | string _ => rfl
    | array _ => rfl
  · intro kvs h
    exact fromJson_badShape kvs h

/-- Witness for C1 at concrete inputs: a JSON string is rejected, and
an empty object (all four fields missing) is rejected. -/
theorem C1_witness :
    TrainingData.from_str (some (Json.string "x")) = none ∧
    TrainingData.from_str (some (Json.object [])) = none :=
  ⟨C1_uniform_failure.2.1 (Json.string "x") rfl,
   C1_uniform_failure.2.2.1 [] rfl⟩

/-- C2: over any store whose collocations map has distinct keys and
duplicate-free buckets (the `HashMap`/`HashSet` representation
guarantees), draining the collocations iterator with any sufficient
fuel yields a finite list whose length is `collocations_len`, in which
every recorded pair occurs exactly once and unrecorded pairs occur
zero times; and once `next` has returned `none`, every further `next`
returns `none` again. -/
theorem C2_collocations_iter_complete (d : TrainingData)
    (hk : (d.collocations.map Prod.fst).Nodup)
    (hb : ∀ p ∈ d.collocations, p.2.Nodup)
    (fuel : Nat) (hf : d.collocations_iter.pairsLeft ≤ fuel) :
    (d.collocations_iter.drain fuel).length = d.collocations_len ∧
    (∀ l r, countPair (d.collocations_iter.drain fuel) (l, r) =
        if d.contains_collocation l r then 1 else 0) ∧
    (∀ s : CollocationsIterator, s.next.1 = none → s.next.2.next = s.next) := by
  have hd : d.collocations_iter.drain fuel = flattenColl d.collocations := by
    have h0 := drain_spec fuel d.collocations none hf
    simpa [curPairs] using h0
  refine ⟨?_, ?_, ?_⟩
  · rw [hd, flatten_length, collocations_len_eq_sum]
  · intro l r
    rw [hd, countPair_flatten d.collocations hk hb l r]
    rfl
  · intro s hs
    have h2 := next_none s hs
    rw [h2]
    rfl

/-- Witness for C2 at the §8 example store with buckets
`a -> (b, c)` and `d -> (e)`: three pairs are yielded, each exactly
once. -/
theorem C2_witness :
    (dIterExample.collocations_iter.drain 3).length =
      dIterExample.collocations_len ∧
    dIterExample.collocations_len = 3 ∧
    countPair (dIterExample.collocations_iter.drain 3) ("a", "b") = 1 ∧
    countPair (dIterExample.collocations_iter.drain 3) ("a", "c") = 1 ∧
    countPair (dIterExample.collocations_iter.drain 3) ("d", "e") = 1 := by
  have h := C2_collocations_iter_complete dIterExample (by decide) (by decide)
    3 (by decide)
  refine ⟨h.1, by decide, ?_, ?_, ?_⟩
  · rw [h.2.1 "a" "b"]; decide
  · rw [h.2.1 "a" "c"]; decide
  · rw [h.2.1 "d" "e"]; decide

/-- Counterexample to C3 as stated: after inserting collocation
`(a, b)` and removing it again, the left key `a` persists with an
empty inner set, so `remove_collocation` does not preserve the
claimed invariant. -/
theorem C3_counterexample :
    alistLookup dOrphan.collocations "a" = some [] ∧
    ¬ NoEmptyBuckets dOrphan := by decide

/-- C3 (amended): the no-empty-bucket invariant holds for the default
store and is preserved by `insert_collocation`, `clear_collocations`
and deserialization, but not by `remove_collocation`, which leaves an
emptied bucket in place. -/
theorem C3_no_empty_buckets_amended :
    NoEmptyBuckets TrainingData.mkDefault ∧
    (∀ (d : TrainingData) (l r : String), NoEmptyBuckets d →
      NoEmptyBuckets (d.insert_collocation l r).2) ∧
    (∀ d : TrainingData, NoEmptyBuckets d.clear_collocations) ∧
    (∀ (j : Json) (d : TrainingData), fromJson j = some d →
      NoEmptyBuckets d) := by
  refine ⟨?_, insert_collocation_noEmpty, ?_, fromJson_noEmpty⟩
  · intro p hp
    simp [TrainingData.mkDefault] at hp
  · intro d p hp
    simp [TrainingData.clear_collocations] at hp

/-- Witness for the amended C3 at concrete inputs: one insertion into
the default store, and the store deserialized from `docTailTwo`. -/
theorem C3_witness :
    NoEmptyBuckets (TrainingData.mkDefault.insert_collocation "a" "b").2 ∧
    NoEmptyBuckets
      ((TrainingData.from_str (some docTailTwo)).getD TrainingData.mkDefault) :=
  ⟨C3_no_empty_buckets_amended.2.1 TrainingData.mkDefault "a" "b" (by decide),
   C3_no_empty_buckets_amended.2.2.2 docTailTwo _ rfl⟩

/-- C4: an inner collocations array whose last two elements are the
strings `x` then `y` records the pair with left token `x` and right
token `y` (so a longer array records only its tail pair), the recorded
pair is reported by `contains_collocation`, and an inner array whose
last two elements are not both strings (including arrays with fewer
than two elements) fails the whole load; concretely, the inner array
with elements `x`, `y`, `z` records `(y, z)` and not `(x, y)`. -/
theorem C4_tail_two_elements :
    (∀ (d : TrainingData) (pre : List Json) (x y : String),
      collocStep d (Json.array (pre ++ [Json.string x, Json.string y])) =
        some (collocAdd d x y)) ∧
    (∀ (d : TrainingData) (x y : String),
      (collocAdd d x y).contains_collocation x y = true) ∧
    (∀ (d : TrainingData) (ar : List Json), tailTwoStrings ar = false →
      collocStep d (Json.array ar) = none) ∧
    (TrainingData.from_str (some docTailTwo)).map
        (fun d => (d.contains_collocation "y" "z",
                   d.contains_collocation "x" "y",
                   d.contains_collocation "u" "v")) =
      some (true, false, true) := by
  refine ⟨collocStep_tail_two, ?_, collocStep_bad, rfl⟩
  intro d x y
  rw [collocAdd_eq_insert]
  exact insert_collocation_contains d x y

/-- Witness for C4 at concrete inputs: the three-element inner array
records its tail pair, and a one-element inner array fails. -/
theorem C4_witness :
    collocStep TrainingData.mkDefault
        (Json.array [Json.string "x", Json.string "y", Json.string "z"]) =
      some (collocAdd TrainingData.mkDefault "y" "z") ∧
    collocStep TrainingData.mkDefault (Json.array [Json.string "solo"]) =
      none :=
  ⟨C4_tail_two_elements.1 TrainingData.mkDefault [Json.string "x"] "y" "z",
   C4_tail_two_elements.2.2.1 TrainingData.mkDefault [Json.string "solo"]
     (by decide)⟩

/-- C5: the element-failure policy of `from_str` is asymmetric — in
the `abbrev_types` and `sentence_starters` arrays every non-string
element is silently skipped (the loaded set holds exactly the string
elements) and the load succeeds, whereas one inner collocations array
whose last two elements are not both strings aborts the entire
collocations load with `none`. -/
theorem C5_asymmetric_failure :
    (∀ (arr : List Json) (x : String),
      x ∈ readStrings arr [] ↔ Json.string x ∈ arr) ∧
    (∀ (d : TrainingData) (pre suf ar : List Json),
      tailTwoStrings ar = false →
      collocFold d (pre ++ Json.array ar :: suf) = none) ∧
    (TrainingData.from_str (some docJunkStrings)).map
        (fun d => (d.abbrev_types, d.sentence_starters)) =
      some (["mr", "dr"], ["the"]) := by
  refine ⟨?_, ?_, rfl⟩
  · intro arr x
    rw [mem_readStrings]
    simp
  · intro d pre suf ar h
    exact collocFold_bad_mem pre suf ar h d

/-- Witness for C5 at concrete inputs: a junk element is skipped in a
string array while the string is kept, and an empty inner array aborts
the collocations load. -/
theorem C5_witness :
    ("dr" ∈ readStrings [Json.u64 9, Json.string "dr"] [] ↔
      Json.string "dr" ∈ [Json.u64 9, Json.string "dr"]) ∧
    collocFold TrainingData.mkDefault [Json.array []] = none :=
  ⟨C5_asymmetric_failure.1 [Json.u64 9, Json.string "dr"] "dr",
   C5_asymmetric_failure.2.1 TrainingData.mkDefault [] [] [] (by decide)⟩

/-- Counterexample to C6 as stated: inserting the already recorded
pair `(a, b)` a second time leaves `collocations_len` unchanged at 1
instead of increasing it by exactly 1. -/
theorem C6_counterexample :
    dDup2.contains_collocation "a" "b" = true ∧
    dDup1.collocations_len = 1 ∧
    dDup2.collocations_len = 1 ∧
    dDup2.collocations_len ≠ dDup1.collocations_len + 1 := by decide

/-- C6 (amended): after `insert_collocation l r` the pair is always
reported by `contains_collocation`; `collocations_len` increases by
exactly 1 when the pair was not yet recorded and is unchanged when it
already was; and `collocations_len` always equals the sum of the inner
bucket sizes, not the number of left keys. -/
theorem C6_insert_collocation_amended :
    (∀ (d : TrainingData) (l r : String),
      (d.insert_collocation l r).2.contains_collocation l r = true) ∧
    (∀ (d : TrainingData) (l r : String),
      d.contains_collocation l r = false →
      (d.insert_collocation l r).2.collocations_len =
        d.collocations_len + 1) ∧
    (∀ (d : TrainingData) (l r : String),
      d.contains_collocation l r = true →
      (d.insert_collocation l r).2.collocations_len = d.collocations_len) ∧
    (∀ d : TrainingData,
      d.collocations_len = (d.collocations.map (fun p => p.2.length)).sum) := by
  refine ⟨insert_collocation_contains, ?_, ?_, collocations_len_eq_sum⟩
  · intro d l r h
    rw [insert_collocation_len, h]
    simp
  · intro d l r h
    rw [insert_collocation_len, h]
    simp

/-- Witness for the amended C6 at concrete inputs: a fresh pair
increases the count by 1, a repeated pair leaves it unchanged. -/
theorem C6_witness :
    (TrainingData.mkDefault.insert_collocation "x" "y").2.collocations_len =
      TrainingData.mkDefault.collocations_len + 1 ∧
    (dDup1.insert_collocation "a" "b").2.collocations_len =
      dDup1.collocations_len :=
  ⟨C6_insert_collocation_amended.2.1 TrainingData.mkDefault "x" "y" (by decide),
   C6_insert_collocation_amended.2.2.1 dDup1 "a" "b" (by decide)⟩

/-- C7: `insert_orthographic_context` is write-once per token — after
storing `v1` for an absent token `t`, a second insert with a different
value `v2` returns false and leaves the stored value `v1`. -/
theorem C7_ortho_write_once (d : TrainingData) (t : String) (v1 v2 : Nat)
    (habs : d.get_orthographic_context t = none) (_hne : v1 ≠ v2) :
    ((d.insert_orthographic_context t v1).2.insert_orthographic_context
        t v2).1 = false ∧
    ((d.insert_orthographic_context t v1).2.insert_orthographic_context
        t v2).2.get_orthographic_context t = some v1 := by
  have habs2 : alistLookup d.orthographic_context t = none := habs
  have hck1 : ¬ alistContainsKey d.orthographic_context t = true := by
    unfold alistContainsKey
    rw [habs2]
    simp
  have h1 : (d.insert_orthographic_context t v1).2 =
      { d with orthographic_context := d.orthographic_context ++ [(t, v1)] } := by
    unfold TrainingData.insert_orthographic_context
    rw [if_neg hck1]
  have hck2 : alistContainsKey
      ({ d with orthographic_context :=
          d.orthographic_context ++ [(t, v1)] } : TrainingData).orthographic_context
        t = true := by
    unfold alistContainsKey
    show (alistLookup (d.orthographic_context ++ [(t, v1)]) t).isSome = true
    rw [alistLookup_append_of_none d.orthographic_context t v1 habs2]
    rfl
  constructor
  · rw [h1]
    unfold TrainingData.insert_orthographic_context
    rw [if_pos hck2]
  · rw [h1]
    unfold TrainingData.insert_orthographic_context
    rw [if_pos hck2]
    show alistLookup (d.orthographic_context ++ [(t, v1)]) t = some v1
    exact alistLookup_append_of_none d.orthographic_context t v1 habs2

/-- Witness for C7 at a concrete token and values. -/
theorem C7_witness :
    ((TrainingData.mkDefault.insert_orthographic_context "tok" 1).2.insert_orthographic_context
        "tok" 2).1 = false ∧
    ((TrainingData.mkDefault.insert_orthographic_context "tok" 1).2.insert_orthographic_context
        "tok" 2).2.get_orthographic_context "tok" = some 1 :=
  C7_ortho_write_once TrainingData.mkDefault "tok" 1 2 (by decide) (by decide)

/-- Counterexample to C8 as stated: on the reachable store `dOrphan`
(insert collocation `(a, b)`, then remove it) the iterator reports the
lower bound 1 while it has no pair left to yield, so the reported
number of unconsumed left keys is not a valid lower bound on the
remaining pairs. -/
theorem C8_counterexample :
    dOrphan.collocations_iter.size_hint = (1, none) ∧
    dOrphan.collocations_iter.next.1 = none ∧
    dOrphan.collocations_iter.drain 1 = [] ∧
    dOrphan.collocations_iter.drain 5 = [] := by decide

/-- C8 (amended): `size_hint` returns the number of left keys not yet
consumed by the outer cursor as lower bound and reports no upper
bound; this lower bound is valid for the pairs still yielded whenever
every unconsumed bucket is non-empty (in particular over stores
satisfying the no-empty-bucket invariant), but not in general, as an
emptied bucket left behind by `remove_collocation` breaks it. -/
theorem C8_size_hint_amended (s : CollocationsIterator) (fuel : Nat)
    (hb : ∀ p ∈ s.iter, p.2 ≠ []) (hf : s.pairsLeft ≤ fuel) :
    s.size_hint = (s.iter.length, none) ∧
    s.iter.length ≤ (s.drain fuel).length := by
  refine ⟨rfl, ?_⟩
  obtain ⟨it, cur⟩ := s
  rw [drain_spec fuel it cur hf, List.length_append, flatten_length]
  have h := length_le_sum it hb
  show it.length ≤ (curPairs cur).length + (it.map (fun p => p.2.length)).sum
  omega

/-- Witness for the amended C8 at the §8 example store. -/
theorem C8_witness :
    dIterExample.collocations_iter.size_hint = (2, none) ∧
    2 ≤ (dIterExample.collocations_iter.drain 3).length := by
  have h := C8_size_hint_amended dIterExample.collocations_iter 3
    (by decide) (by decide)
  exact ⟨h.1, h.2⟩

/-- C9: every `ortho_context` entry whose value is a non-negative
integer is inserted with the value narrowed to 8 bits (`as u8`, so the
stored value is the value mod 256); every entry whose value is not in
the non-negative-integer variant is silently skipped and the load
still succeeds; concretely, value 300 is stored as 44 and float and
negative-integer values are dropped. -/
theorem C9_ortho_narrowing :
    (∀ (okvs : List (String × Json)) (d : TrainingData) (k : String) (n : Nat),
      (okvs.map Prod.fst).Nodup → (k, Json.u64 n) ∈ okvs →
      alistLookup (orthoFold d okvs).orthographic_context k = some (n % 256)) ∧
    (∀ (okvs : List (String × Json)) (d : TrainingData) (k : String),
      alistLookup d.orthographic_context k = none →
      (∀ v, (k, v) ∈ okvs → v.isU64 = false) →
      alistLookup (orthoFold d okvs).orthographic_context k = none) ∧
    (TrainingData.from_str (some docOrthoMixed)).map
        (fun d => (d.get_orthographic_context "a",
                   d.get_orthographic_context "b",
                   d.get_orthographic_context "c")) =
      some (some 44, none, none) := by
  refine ⟨?_, ?_, rfl⟩
  · intro okvs d k n hk hmem
    exact orthoFold_u64 okvs hk d k n hmem
  · intro okvs d k h1 h2
    exact orthoFold_skip okvs d k h1 h2

/-- Witness for C9 at concrete entries: a `u64` value 300 is stored as
44, a float value is skipped. -/
theorem C9_witness :
    alistLookup (orthoFold TrainingData.mkDefault
        [("k", Json.u64 300)]).orthographic_context "k" = some 44 ∧
    alistLookup (orthoFold TrainingData.mkDefault
        [("k", Json.f64)]).orthographic_context "k" = none := by
  have h1 := C9_ortho_narrowing.1 [("k", Json.u64 300)] TrainingData.mkDefault
    "k" 300 (by decide) (List.mem_cons_self _ _)
  have h2 := C9_ortho_narrowing.2.1 [("k", Json.f64)] TrainingData.mkDefault
    "k" rfl (fun v hv => by
      have hm := List.mem_singleton.mp hv
      have hv2 : v = Json.f64 := congrArg Prod.snd hm
      rw [hv2]
      rfl)
  exact ⟨h1, h2⟩

/-- C10: a collocations element that is not itself a JSON array (a
string, number, boolean, null or object) is silently skipped by the
element loop and the load continues; only array elements can trigger
the hard whole-load failure. -/
theorem C10_nonarray_skipped :
    (∀ (d : TrainingData) (x : Json), x.isArrayVal = false →
      collocStep d x = some d) ∧
    (∀ (d : TrainingData) (x : Json) (rest : List Json),
      x.isArrayVal = false →
      collocFold d (x :: rest) = collocFold d rest) ∧
    (TrainingData.from_str (some docJunkColloc)).map
        (fun d => d.contains_collocation "a" "b") = some true :=
  ⟨collocStep_nonarray, fun d x rest h => collocFold_skip d x rest h, rfl⟩

/-- Witness for C10 at concrete inputs: a string element and a null
element in the collocations array are skipped without failing. -/
theorem C10_witness :
    collocStep TrainingData.mkDefault (Json.string "junk") =
      some TrainingData.mkDefault ∧
    collocFold TrainingData.mkDefault [Json.null] =
      collocFold TrainingData.mkDefault [] :=
  ⟨C10_nonarray_skipped.1 TrainingData.mkDefault (Json.string "junk") rfl,
   C10_nonarray_skipped.2.1 TrainingData.mkDefault Json.null [] rfl⟩
